import Mathlib

/-!
Verification of the comment-stripping state machine of `join-ai`
(`src/decommenter/logic.rs`, function `remove_comments`) and of the
concatenation pipeline (`src/processor.rs`, function `process_files`),
against the natural-language specification.

Bytes are modelled as `Nat` values (u8), byte strings as `List Nat`.
The Rust `while` loop is modelled as a fueled loop (`stripLoop`) over a
single-step transition function (`stripStep`); fuel equal to the input
length matches the loop-step bound stated by the spec for well-formed
syntax tables.
-/

namespace JoinAi

abbrev Byte := Nat

/-- `Language` mirrors the `Language` struct of `src/decommenter/mod.rs`:
line-comment markers, (start, end) block-comment pairs, (start, end) quote
pairs, and the nesting flag. Delimiters are byte strings. -/
structure Language where
  line_comments : List (List Byte)
  multi_line_comments : List (List Byte × List Byte)
  quotes : List (List Byte × List Byte)
  allows_nested : Bool
deriving DecidableEq, Repr

/-- `startsWith hay pat` is Rust's `hay.starts_with(pat)` on byte slices. -/
def startsWith : List Byte → List Byte → Bool
  | _, [] => true
  | [], _ :: _ => false
  | a :: as, b :: bs => a == b && startsWith as bs

/-- `find_subsequence(remaining, b"\n")` from `logic.rs`: the byte offset of
the first newline byte, if any. -/
def findNewlinePos : List Byte → Option Nat
  | [] => none
  | b :: rest => if b == 10 then some 0 else (findNewlinePos rest).map (· + 1)

/-- The trailing-whitespace trim executed on a line-comment match
(`logic.rs` lines 69-79): drop trailing space (32) and tab (9) bytes
from the output written so far. -/
def trimTrailing (out : List Byte) : List Byte :=
  (out.reverse.dropWhile (fun b => b == 32 || b == 9)).reverse

/-- The delimiter recognized at one position in the `Code` state. -/
inductive Delim where
  | line (m : List Byte)
  | block (s e : List Byte)
  | quote (s e : List Byte)
deriving DecidableEq, Repr

/-- The `Code`-state delimiter check of `remove_comments` (`logic.rs`
lines 61-111), in source order: line comments first, then block-comment
starts, then quote starts, each list searched front to back. -/
def codeScan (lang : Language) (rem : List Byte) : Option Delim :=
  match lang.line_comments.find? (fun m => startsWith rem m) with
  | some m => some (Delim.line m)
  | none =>
    match lang.multi_line_comments.find? (fun p => startsWith rem p.1) with
    | some p => some (Delim.block p.1 p.2)
    | none =>
      match lang.quotes.find? (fun p => startsWith rem p.1) with
      | some p => some (Delim.quote p.1 p.2)
      | none => none

/-- State of the scanner: the unread suffix of the input, the stack of
pending block-comment end delimiters, the active string end delimiter,
and the output written so far. -/
structure MachineState where
  remaining : List Byte
  stack : List (List Byte)
  strDelim : Option (List Byte)
  output : List Byte
deriving DecidableEq, Repr

/-- One iteration of the `while` loop of `remove_comments`
(`logic.rs` lines 15-116). On empty remaining input the loop has exited
and the state is returned unchanged. -/
def stripStep (lang : Language) (s : MachineState) : MachineState :=
  match s.remaining with
  | [] => s
  | b :: rest =>
    match s.strDelim with
    | some delim =>
      -- STATE 1: inside a string (highest priority).
      if startsWith s.remaining delim then
        { s with output := s.output ++ delim,
                 remaining := s.remaining.drop delim.length,
                 strDelim := none }
      else if b == 92 && !rest.isEmpty then
        { s with output := s.output ++ s.remaining.take 2,
                 remaining := s.remaining.drop 2 }
      else
        { s with output := s.output ++ [b], remaining := rest }
    | none =>
      match s.stack with
      | endDelim :: stackRest =>
        -- STATE 2: inside a multi-line comment.
        if startsWith s.remaining endDelim then
          { s with remaining := s.remaining.drop endDelim.length,
                   stack := stackRest }
        else
          match (if lang.allows_nested then
                   lang.multi_line_comments.find?
                     (fun p => startsWith s.remaining p.1)
                 else none) with
          | some p =>
            { s with stack := p.2 :: s.stack,
                     remaining := s.remaining.drop p.1.length }
          | none =>
            if b == 10 then
              { s with output := s.output ++ [10], remaining := rest }
            else
              { s with remaining := rest }
      | [] =>
        -- STATE 3: in normal code.
        match codeScan lang s.remaining with
        | some (Delim.line _) =>
          match findNewlinePos s.remaining with
          | some k => { s with output := trimTrailing s.output,
                               remaining := s.remaining.drop k }
          | none => { s with output := trimTrailing s.output,
                             remaining := [] }
        | some (Delim.block st en) =>
          { s with stack := en :: s.stack,
                   remaining := s.remaining.drop st.length }
        | some (Delim.quote st en) =>
          { s with output := s.output ++ st,
                   strDelim := some en,
                   remaining := s.remaining.drop st.length }
        | none =>
          { s with output := s.output ++ [b], remaining := rest }

/-- The `while cursor < contents.len()` loop of `remove_comments`, fueled:
`none` means the loop did not exit within `fuel` iterations. -/
def stripLoop (lang : Language) (fuel : Nat) (s : MachineState) :
    Option (List Byte) :=
  match fuel, s.remaining with
  | _, [] => some s.output
  | 0, _ :: _ => none
  | f + 1, _ :: _ => stripLoop lang f (stripStep lang s)

/-- Initial scanner state: cursor at offset 0, empty comment stack, no
active string delimiter, empty output. -/
def initState (contents : List Byte) : MachineState :=
  ⟨contents, [], none, []⟩

/-- `remove_comments(contents, lang)` from `logic.rs`. The Rust loop
advances the cursor by at least one byte per iteration for every
well-formed syntax table, so fuel equal to the input length reproduces
it exactly (proved below for such tables). -/
def remove_comments (contents : List Byte) (lang : Language) : List Byte :=
  (stripLoop lang contents.length (initState contents)).getD []

/-- Spec-side notion, following the specification's words: all candidate
delimiters matching at one byte offset, listed in category-priority order
(line comment, then block-comment start, then quote start) and, within a
category, in table order. -/
def specCandidates (lang : Language) (rem : List Byte) : List Delim :=
  (lang.line_comments.filter (fun m => startsWith rem m)).map Delim.line
    ++ (lang.multi_line_comments.filter (fun p => startsWith rem p.1)).map
        (fun p => Delim.block p.1 p.2)
    ++ (lang.quotes.filter (fun p => startsWith rem p.1)).map
        (fun p => Delim.quote p.1 p.2)

/-- Spec-side chooser: the first candidate in category-priority /
table order, per the specification's tie-breaking rules. -/
def specChoose (lang : Language) (rem : List Byte) : Option Delim :=
  (specCandidates lang rem).head?

/-- The `Code`-state handler of the recognized delimiter, as performed by
the source on a match: line comment trims trailing blanks and skips to
the newline; block start pushes the end delimiter; quote start emits the
start delimiter and activates string mode. -/
def codeApply (lang : Language) (d : Delim) (s : MachineState) :
    MachineState :=
  match d with
  | Delim.line _ =>
    match findNewlinePos s.remaining with
    | some k => { s with output := trimTrailing s.output,
                         remaining := s.remaining.drop k }
    | none => { s with output := trimTrailing s.output, remaining := [] }
  | Delim.block st en =>
    { s with stack := en :: s.stack, remaining := s.remaining.drop st.length }
  | Delim.quote st en =>
    { s with output := s.output ++ st, strDelim := some en,
             remaining := s.remaining.drop st.length }

/-- ASCII string to byte list, for readable test inputs. -/
def toBytes (s : String) : List Byte :=
  s.data.map Char.toNat

/-- A C-like syntax with nested block comments allowed
(line `//`, block `/*` `*/`, quote `"`). -/
def cNested : Language :=
  ⟨[[47, 47]], [([47, 42], [42, 47])], [([34], [34])], true⟩

/-- The same C-like syntax with nesting disallowed. -/
def cFlat : Language :=
  ⟨[[47, 47]], [([47, 42], [42, 47])], [([34], [34])], false⟩

/-- A syntax whose line-comment marker is the two-byte string `##`. -/
def hashLang : Language :=
  ⟨[[35, 35]], [([47, 42], [42, 47])], [([34], [34])], false⟩

/-- A syntax whose only delimiter is a non-empty line-comment marker
consisting of the single newline byte. -/
def nlLang : Language :=
  ⟨[[10]], [], [], false⟩

/-- Modelled from the spec: the Rust entry of the language table
(`languages.toml`, which is not under `src/`): line comment `//`,
block comment `/*` `*/` with nesting allowed, quote `"`. -/
def rustLang : Language :=
  ⟨[[47, 47]], [([47, 42], [42, 47])], [([34], [34])], true⟩

/-- Result of `fs::read` for one file, as seen by `process_files`. -/
inductive ReadResult where
  | ok (contents : List Byte)
  | err
deriving DecidableEq, Repr

/-- The bytes written by `writeln!(output_file, "// FILE: {}", path)`:
the literal header `// FILE: ` followed by the path and a newline. -/
def headerBytes (path : List Byte) : List Byte :=
  [47, 47, 32, 70, 73, 76, 69, 58, 32] ++ path ++ [10]

/-- `process_files` from `src/processor.rs`, with the file system
abstracted as the list of (path, read result) pairs delivered by the
walker channel: unreadable files are skipped, files containing a NUL
byte are skipped as binary, and every other file is appended as header,
contents, and a trailing newline. -/
def process_files (files : List (List Byte × ReadResult)) : List Byte :=
  files.foldl
    (fun acc f =>
      match f.2 with
      | ReadResult.err => acc
      | ReadResult.ok contents =>
        if contents.contains 0 then acc
        else acc ++ headerBytes f.1 ++ contents ++ [10])
    []

/-- Well-formedness of a syntax table under which the Rust loop strictly
advances: all delimiter strings are non-empty, and no line-comment marker
begins with the newline byte (a marker beginning with a newline makes the
line-comment handler advance the cursor by zero bytes forever). -/
def goodSyntax (lang : Language) : Prop :=
  (∀ m ∈ lang.line_comments, m ≠ [] ∧ m.head? ≠ some 10)
    ∧ (∀ p ∈ lang.multi_line_comments, p.1 ≠ [] ∧ p.2 ≠ [])
    ∧ (∀ p ∈ lang.quotes, p.1 ≠ [] ∧ p.2 ≠ [])

instance (lang : Language) : Decidable (goodSyntax lang) := by
  unfold goodSyntax; infer_instance

/-- Invariant of reachable scanner states: the pending block-comment end
delimiters and the active string end delimiter are non-empty. -/
def stateOK (s : MachineState) : Prop :=
  (∀ e ∈ s.stack, e ≠ []) ∧ (∀ d, s.strDelim = some d → d ≠ [])

/-! ### Basic lemmas about the byte-level helpers -/

theorem startsWith_length : ∀ {l p : List Byte},
    startsWith l p = true → p.length ≤ l.length := by
  intro l p
  induction p generalizing l with
  | nil => simp
  | cons b bs ih =>
    cases l with
    | nil => intro h; simp [startsWith] at h
    | cons a as =>
      intro h
      simp only [startsWith, Bool.and_eq_true, beq_iff_eq] at h
      simpa using Nat.succ_le_succ (ih h.2)

theorem startsWith_take : ∀ {l p : List Byte},
    startsWith l p = true → l.take p.length = p := by
  intro l p
  induction p generalizing l with
  | nil => simp
  | cons b bs ih =>
    cases l with
    | nil => intro h; simp [startsWith] at h
    | cons a as =>
      intro h
      simp only [startsWith, Bool.and_eq_true, beq_iff_eq] at h
      simp [List.take_succ_cons, h.1, ih h.2]

theorem head?_filter {α : Type} (p : α → Bool) (l : List α) :
    (l.filter p).head? = l.find? p := by
  induction l with
  | nil => rfl
  | cons a l ih =>
    by_cases h : p a <;> simp [List.filter_cons, List.find?_cons, h, ih]

theorem dropWhile_length_le {α : Type} (p : α → Bool) (l : List α) :
    (l.dropWhile p).length ≤ l.length := by
  induction l with
  | nil => simp
  | cons a l ih =>
    by_cases h : p a <;> simp [List.dropWhile_cons, h] <;> omega

theorem trimTrailing_length (out : List Byte) :
    (trimTrailing out).length ≤ out.length := by
  unfold trimTrailing
  calc ((out.reverse.dropWhile (fun b => b == 32 || b == 9)).reverse).length
      = (out.reverse.dropWhile (fun b => b == 32 || b == 9)).length := by
        simp
    _ ≤ out.reverse.length := dropWhile_length_le _ _
    _ = out.length := by simp

/-! ### The Code-state scanner agrees with the spec's chooser -/

theorem codeScan_eq_specChoose (lang : Language) (rem : List Byte) :
    codeScan lang rem = specChoose lang rem := by
  unfold codeScan specChoose specCandidates
  rw [List.head?_append, List.head?_append, List.head?_map, List.head?_map,
      List.head?_map, head?_filter, head?_filter, head?_filter]
  cases lang.line_comments.find? (fun m => startsWith rem m) <;>
    cases lang.multi_line_comments.find? (fun p => startsWith rem p.1) <;>
      cases lang.quotes.find? (fun p => startsWith rem p.1) <;>
        simp [Option.or]

/-! ### Single steps of the machine, by state -/

theorem stripStep_code_none {lang : Language} {b : Byte} {rest out : List Byte}
    (h : codeScan lang (b :: rest) = none) :
    stripStep lang ⟨b :: rest, [], none, out⟩ = ⟨rest, [], none, out ++ [b]⟩ := by
  simp [stripStep, h]

theorem stripStep_code_some {lang : Language} {rem out : List Byte} {d : Delim}
    (hne : rem ≠ []) (h : codeScan lang rem = some d) :
    stripStep lang ⟨rem, [], none, out⟩ = codeApply lang d ⟨rem, [], none, out⟩ := by
  cases rem with
  | nil => exact absurd rfl hne
  | cons b rest =>
    cases d with
    | line m => simp [stripStep, codeApply, h]
    | block st en => simp [stripStep, codeApply, h]
    | quote st en => simp [stripStep, codeApply, h]

theorem code_copy (lang : Language) :
    ∀ (j : Nat) (rem out : List Byte),
      (∀ i, i < j → specChoose lang (rem.drop i) = none) →
      (stripStep lang)^[j] ⟨rem, [], none, out⟩
        = ⟨rem.drop j, [], none, out ++ rem.take j⟩ := by
  intro j
  induction j with
  | zero => intro rem out _; simp
  | succ j ih =>
    intro rem out h
    rw [Function.iterate_succ_apply]
    cases rem with
    | nil =>
      have hstep : stripStep lang ⟨[], [], none, out⟩ = ⟨[], [], none, out⟩ := rfl
      have hnil : ∀ i, i < j → specChoose lang (List.drop i ([] : List Byte)) = none := by
        intro i _
        simpa using h 0 (by omega)
      rw [hstep, ih [] out hnil]
      simp
    | cons b rest =>
      have h0 : specChoose lang (b :: rest) = none := by simpa using h 0 (by omega)
      have hcs : codeScan lang (b :: rest) = none := by
        rw [codeScan_eq_specChoose]; exact h0
      rw [stripStep_code_none hcs,
          ih rest (out ++ [b]) (fun i hi => by simpa using h (i + 1) (by omega))]
      simp

/-- Claim C1: in the Code state the stripper recognizes the
byte-offset-minimal delimiter match at or after the cursor among all three
categories, breaking ties at one offset by category priority (line
comment, then block-comment start, then quote start) and, within a
category, by table order. Formally: the source's Code-state check
`codeScan` agrees everywhere with the spec's prioritized chooser
`specChoose`; positions before the first match are copied verbatim while
staying in the Code state; and at the first match the step performs the
handler of the chosen delimiter. -/
theorem claim_c1_earliest_delimiter (lang : Language) (rem out : List Byte)
    (j : Nat) (d : Delim)
    (hbefore : ∀ i, i < j → specChoose lang (rem.drop i) = none)
    (hat : specChoose lang (rem.drop j) = some d)
    (hj : j < rem.length) :
    (∀ r, codeScan lang r = specChoose lang r)
    ∧ (stripStep lang)^[j] ⟨rem, [], none, out⟩
        = ⟨rem.drop j, [], none, out ++ rem.take j⟩
    ∧ stripStep lang ⟨rem.drop j, [], none, out ++ rem.take j⟩
        = codeApply lang d ⟨rem.drop j, [], none, out ++ rem.take j⟩ := by
  refine ⟨codeScan_eq_specChoose lang, code_copy lang j rem out hbefore, ?_⟩
  have hne : rem.drop j ≠ [] := by
    intro hcon
    have : (rem.drop j).length = 0 := by rw [hcon]; rfl
    rw [List.length_drop] at this
    omega
  exact stripStep_code_some hne (by rw [codeScan_eq_specChoose]; exact hat)

/-- Witness for C1 at a concrete input: in `ab//x` with the C-like
syntax, the first delimiter is the line-comment marker at offset 2. -/
theorem claim_c1_earliest_delimiter_witness :
    (∀ r, codeScan cNested r = specChoose cNested r)
    ∧ (stripStep cNested)^[2] ⟨toBytes "ab//x", [], none, []⟩
        = ⟨(toBytes "ab//x").drop 2, [], none, [] ++ (toBytes "ab//x").take 2⟩
    ∧ stripStep cNested
          ⟨(toBytes "ab//x").drop 2, [], none, [] ++ (toBytes "ab//x").take 2⟩
        = codeApply cNested (Delim.line [47, 47])
          ⟨(toBytes "ab//x").drop 2, [], none, [] ++ (toBytes "ab//x").take 2⟩ :=
  claim_c1_earliest_delimiter cNested (toBytes "ab//x") [] 2
    (Delim.line [47, 47])
    (by decide) (by decide) (by decide)

/-! ### String state: every step copies the consumed bytes verbatim -/

theorem string_step {lang : Language} {s : MachineState}
    (h : s.strDelim.isSome) :
    ∃ c sd, c ≤ s.remaining.length ∧
      stripStep lang s
        = ⟨s.remaining.drop c, s.stack, sd, s.output ++ s.remaining.take c⟩ := by
  obtain ⟨rem, stk, sdelim, out⟩ := s
  cases sdelim with
  | none => simp at h
  | some d =>
    cases rem with
    | nil => exact ⟨0, some d, by simp, by simp [stripStep]⟩
    | cons b rest =>
      by_cases hd : startsWith (b :: rest) d
      · refine ⟨d.length, none, startsWith_length hd, ?_⟩
        simp [stripStep, hd, startsWith_take hd]
      · by_cases hb : (b == 92 && !rest.isEmpty) = true
        · refine ⟨2, some d, ?_, by simp [stripStep, hd, hb]⟩
          cases rest with
          | nil => simp at hb
          | cons r rs => simp
        · exact ⟨1, some d, by simp, by simp [stripStep, hd, hb]⟩

theorem string_copy (lang : Language) :
    ∀ (n : Nat) (s : MachineState), s.strDelim.isSome →
      (∀ i, i < n → ((stripStep lang)^[i] s).strDelim.isSome) →
      ∃ k, k ≤ s.remaining.length ∧
        ((stripStep lang)^[n] s).output = s.output ++ s.remaining.take k ∧
        ((stripStep lang)^[n] s).remaining = s.remaining.drop k ∧
        ((stripStep lang)^[n] s).stack = s.stack := by
  intro n
  induction n with
  | zero => intro s h _; exact ⟨0, by simp, by simp, by simp, rfl⟩
  | succ n ih =>
    intro s h hin
    obtain ⟨c, sd, hc, hstep⟩ := @string_step lang s h
    rw [Function.iterate_succ_apply, hstep]
    cases n with
    | zero => exact ⟨c, hc, by simp, by simp, by simp⟩
    | succ m =>
      have h1 : sd.isSome := by
        have := hin 1 (by omega)
        rw [Function.iterate_one, hstep] at this
        simpa using this
      have hin1 : ∀ i, i < m + 1 →
          ((stripStep lang)^[i]
            (⟨s.remaining.drop c, s.stack, sd,
              s.output ++ s.remaining.take c⟩ : MachineState)).strDelim.isSome := by
        intro i hi
        have := hin (i + 1) (by omega)
        rw [Function.iterate_succ_apply, hstep] at this
        exact this
      obtain ⟨k, hk, ho, hr, hs⟩ := ih _ h1 hin1
      refine ⟨c + k, ?_, ?_, ?_, ?_⟩
      · simp [List.length_drop] at hk
        omega
      · rw [ho]; simp [List.take_add, List.append_assoc]
      · rw [hr]; simp [List.drop_drop]
      · rw [hs]

/-- Claim C3: while in the InString state, string content bytes --
including bytes that look like comment markers and backslash-escaped
pairs -- are copied to the output unchanged: any run of steps whose
intermediate states all carry an active string delimiter appends to the
output exactly the consumed prefix of the remaining input, leaving the
comment stack untouched. -/
theorem claim_c3_string_verbatim (lang : Language) (s : MachineState)
    (hstr : s.strDelim.isSome) (n : Nat)
    (hin : ∀ i, i < n → ((stripStep lang)^[i] s).strDelim.isSome) :
    ∃ k, k ≤ s.remaining.length ∧
      ((stripStep lang)^[n] s).output = s.output ++ s.remaining.take k ∧
      ((stripStep lang)^[n] s).remaining = s.remaining.drop k ∧
      ((stripStep lang)^[n] s).stack = s.stack :=
  string_copy lang n s hstr hin

/-- Witness for C3: inside a double-quoted string of the C-like syntax,
the content `// x` followed by the closing quote is copied verbatim. -/
theorem claim_c3_string_verbatim_witness :
    ∃ k, k ≤ (toBytes "// x\" y").length ∧
      ((stripStep cNested)^[5]
        (⟨toBytes "// x\" y", [], some [34], []⟩ : MachineState)).output
        = [] ++ (toBytes "// x\" y").take k ∧
      ((stripStep cNested)^[5]
        (⟨toBytes "// x\" y", [], some [34], []⟩ : MachineState)).remaining
        = (toBytes "// x\" y").drop k ∧
      ((stripStep cNested)^[5]
        (⟨toBytes "// x\" y", [], some [34], []⟩ : MachineState)).stack = [] :=
  claim_c3_string_verbatim cNested ⟨toBytes "// x\" y", [], some [34], []⟩
    (by decide) 5 (by decide)

/-! ### Block-comment state: only newline bytes are emitted -/

theorem filter_newline_of_not_mem {l : List Byte} (h : 10 ∉ l) :
    l.filter (fun b => b == 10) = [] := by
  rw [List.filter_eq_nil_iff]
  intro a ha
  simp only [beq_iff_eq]
  intro hcon
  exact h (hcon ▸ ha)

theorem block_step {lang : Language} {s : MachineState}
    (hlang : ∀ p ∈ lang.multi_line_comments, 10 ∉ p.1 ∧ 10 ∉ p.2)
    (hsd : s.strDelim = none) (hstk : s.stack ≠ [])
    (hstk10 : ∀ e ∈ s.stack, 10 ∉ e) :
    ∃ c stk, c ≤ s.remaining.length ∧
      stripStep lang s
        = ⟨s.remaining.drop c, stk, none,
           s.output ++ (s.remaining.take c).filter (fun b => b == 10)⟩ ∧
      (∀ e ∈ stk, 10 ∉ e) := by
  obtain ⟨rem, stk, sdelim, out⟩ := s
  subst hsd
  cases stk with
  | nil => exact absurd rfl hstk
  | cons e stkRest =>
    cases rem with
    | nil =>
      exact ⟨0, e :: stkRest, by simp, by simp [stripStep], hstk10⟩
    | cons b rest =>
      by_cases he : startsWith (b :: rest) e
      · refine ⟨e.length, stkRest, startsWith_length he, ?_, ?_⟩
        · have h10 : 10 ∉ e := hstk10 e (by simp)
          simp [stripStep, he, startsWith_take he, filter_newline_of_not_mem h10]
        · intro x hx; exact hstk10 x (by simp [hx])
      · rcases hnest : (if lang.allows_nested then
            lang.multi_line_comments.find?
              (fun p => startsWith (b :: rest) p.1)
          else none) with _ | p
        · by_cases hb : b = 10
          · subst hb
            refine ⟨1, e :: stkRest, by simp, ?_, hstk10⟩
            simp [stripStep, he, hnest]
          · refine ⟨1, e :: stkRest, by simp, ?_, hstk10⟩
            simp [stripStep, he, hnest, hb]
        · have hfind : lang.multi_line_comments.find?
              (fun p => startsWith (b :: rest) p.1) = some p := by
            by_cases hn : lang.allows_nested
            · simpa [hn] using hnest
            · simp [hn] at hnest
          have hmem := List.mem_of_find?_eq_some hfind
          have hsw : startsWith (b :: rest) p.1 = true := by
            have := List.find?_some hfind
            simpa using this
          refine ⟨p.1.length, p.2 :: e :: stkRest, startsWith_length hsw, ?_, ?_⟩
          · have h10 : 10 ∉ p.1 := (hlang p hmem).1
            simp [stripStep, he, hnest, startsWith_take hsw,
                  filter_newline_of_not_mem h10]
          · intro x hx
            rcases List.mem_cons.mp hx with hx | hx
            · exact hx ▸ (hlang p hmem).2
            · exact hstk10 x hx

theorem block_copy (lang : Language)
    (hlang : ∀ p ∈ lang.multi_line_comments, 10 ∉ p.1 ∧ 10 ∉ p.2) :
    ∀ (n : Nat) (s : MachineState), s.strDelim = none →
      (∀ e ∈ s.stack, 10 ∉ e) →
      (∀ i, i < n → ((stripStep lang)^[i] s).stack ≠ []) →
      ∃ k, k ≤ s.remaining.length ∧
        ((stripStep lang)^[n] s).output
          = s.output ++ (s.remaining.take k).filter (fun b => b == 10) ∧
        ((stripStep lang)^[n] s).remaining = s.remaining.drop k := by
  intro n
  induction n with
  | zero => intro s _ _ _; exact ⟨0, by simp, by simp, by simp⟩
  | succ n ih =>
    intro s hsd hstk10 hin
    have hstk : s.stack ≠ [] := by simpa using hin 0 (by omega)
    obtain ⟨c, stk, hc, hstep, hstk10x⟩ :=
      @block_step lang s hlang hsd hstk hstk10
    rw [Function.iterate_succ_apply, hstep]
    have hin1 : ∀ i, i < n →
        ((stripStep lang)^[i]
          (⟨s.remaining.drop c, stk, none,
            s.output ++ (s.remaining.take c).filter (fun b => b == 10)⟩ :
              MachineState)).stack ≠ [] := by
      intro i hi
      have := hin (i + 1) (by omega)
      rw [Function.iterate_succ_apply, hstep] at this
      exact this
    obtain ⟨k, hk, ho, hr⟩ := ih _ rfl hstk10x hin1
    refine ⟨c + k, ?_, ?_, ?_⟩
    · simp [List.length_drop] at hk
      omega
    · rw [ho]
      simp [List.take_add, List.filter_append, List.append_assoc]
    · rw [hr]; simp [List.drop_drop]

/-- Claim C6: while in the InBlockComment state a newline byte is emitted
and every other byte, the block-comment delimiters included, is
discarded: any run of steps whose states all stay inside a block comment
(for a syntax whose block delimiters contain no newline byte) appends to
the output exactly the newline bytes among the consumed input; hence a
terminated block comment spanning N newline bytes leaves exactly those N
newlines in the output at that position. -/
theorem claim_c6_block_newlines (lang : Language)
    (hlang : ∀ p ∈ lang.multi_line_comments, 10 ∉ p.1 ∧ 10 ∉ p.2)
    (s : MachineState) (hsd : s.strDelim = none)
    (hstk10 : ∀ e ∈ s.stack, 10 ∉ e) (n : Nat)
    (hin : ∀ i, i < n → ((stripStep lang)^[i] s).stack ≠ []) :
    ∃ k, k ≤ s.remaining.length ∧
      ((stripStep lang)^[n] s).output
        = s.output ++ (s.remaining.take k).filter (fun b => b == 10) ∧
      ((stripStep lang)^[n] s).remaining = s.remaining.drop k :=
  block_copy lang hlang n s hsd hstk10 hin

/-- Witness for C6: inside a C-like block comment, the content
`a(newline)b` followed by the closing delimiter leaves exactly the one
newline byte in the output. -/
theorem claim_c6_block_newlines_witness :
    ∃ k, k ≤ (toBytes "a\nb*/x").length ∧
      ((stripStep cNested)^[4]
        (⟨toBytes "a\nb*/x", [[42, 47]], none, []⟩ : MachineState)).output
        = [] ++ ((toBytes "a\nb*/x").take k).filter (fun b => b == 10) ∧
      ((stripStep cNested)^[4]
        (⟨toBytes "a\nb*/x", [[42, 47]], none, []⟩ : MachineState)).remaining
        = (toBytes "a\nb*/x").drop k :=
  claim_c6_block_newlines cNested (by decide)
    ⟨toBytes "a\nb*/x", [[42, 47]], none, []⟩ rfl (by decide) 4 (by decide)

/-- Claim C4: for a nesting-allowed syntax the input
`/* A /* B */ C */` strips to empty output, since the inner
block-comment start pushed one more nesting level and both levels must
close; for a non-nesting syntax the same input strips only up to the
first `*/`, leaving ` C */` as residual code in the output. -/
theorem claim_c4_nesting :
    remove_comments (toBytes "/* A /* B */ C */") cNested = []
    ∧ remove_comments (toBytes "/* A /* B */ C */") cFlat
        = toBytes " C */" := by
  constructor <;> decide

/-- Claim C5: on a line-comment match the stripper first trims trailing
space and tab bytes already written to the output, then advances the
cursor to the next newline byte without consuming it, or to end of input
when no newline remains: `code   // comment\n` strips to `code\n`, a
tab before the marker is trimmed as well, and without a trailing newline
the rest of the input is dropped. -/
theorem claim_c5_line_comment_trim :
    remove_comments (toBytes "code   // comment\n") cNested
        = toBytes "code\n"
    ∧ remove_comments (toBytes "code\t// c\n") cNested = toBytes "code\n"
    ∧ remove_comments (toBytes "x // c") cNested = toBytes "x" := by
  refine ⟨by decide, by decide, by decide⟩

/-- Claim C7: unterminated block comments or strings are not errors: the
scanner runs to end of input, discarding an unterminated block comment
(keeping only its newlines) and passing an unterminated string through;
`/* never closes` strips to the empty output under both the nesting and
the non-nesting C-like syntax, an unterminated block comment containing
a newline keeps exactly that newline, and an unterminated string is
emitted verbatim. -/
theorem claim_c7_unterminated :
    remove_comments (toBytes "/* never closes") cNested = []
    ∧ remove_comments (toBytes "/* never closes") cFlat = []
    ∧ remove_comments (toBytes "/*a\nb") cFlat = toBytes "\n"
    ∧ remove_comments (toBytes "\"never closes") cFlat
        = toBytes "\"never closes" := by
  refine ⟨by decide, by decide, by decide, by decide⟩

/-! ### Inversion of the Code-state scanner -/

theorem codeScan_line {lang : Language} {rem m : List Byte}
    (h : codeScan lang rem = some (Delim.line m)) :
    m ∈ lang.line_comments ∧ startsWith rem m = true := by
  unfold codeScan at h
  rcases h1 : lang.line_comments.find? (fun x => startsWith rem x) with _ | m'
  · rw [h1] at h
    rcases h2 : lang.multi_line_comments.find? (fun p => startsWith rem p.1)
        with _ | p
    · rw [h2] at h
      rcases h3 : lang.quotes.find? (fun p => startsWith rem p.1) with _ | q
      · rw [h3] at h; exact absurd h (by simp)
      · rw [h3] at h; simp at h
    · rw [h2] at h; simp at h
  · rw [h1] at h
    simp only [Option.some.injEq, Delim.line.injEq] at h
    subst h
    refine ⟨List.mem_of_find?_eq_some h1, ?_⟩
    have := List.find?_some h1
    simpa using this

theorem codeScan_block {lang : Language} {rem st en : List Byte}
    (h : codeScan lang rem = some (Delim.block st en)) :
    (st, en) ∈ lang.multi_line_comments ∧ startsWith rem st = true := by
  unfold codeScan at h
  rcases h1 : lang.line_comments.find? (fun x => startsWith rem x) with _ | m'
  · rw [h1] at h
    rcases h2 : lang.multi_line_comments.find? (fun p => startsWith rem p.1)
        with _ | p
    · rw [h2] at h
      rcases h3 : lang.quotes.find? (fun p => startsWith rem p.1) with _ | q
      · rw [h3] at h; exact absurd h (by simp)
      · rw [h3] at h; simp at h
    · rw [h2] at h
      simp only [Option.some.injEq, Delim.block.injEq] at h
      obtain ⟨hst, hen⟩ := h
      have hmem := List.mem_of_find?_eq_some h2
      have hsw := List.find?_some h2
      simp only at hsw
      constructor
      · rw [← hst, ← hen]; simpa using hmem
      · rw [← hst]; simpa using hsw
  · rw [h1] at h; simp at h

theorem codeScan_quote {lang : Language} {rem st en : List Byte}
    (h : codeScan lang rem = some (Delim.quote st en)) :
    (st, en) ∈ lang.quotes ∧ startsWith rem st = true := by
  unfold codeScan at h
  rcases h1 : lang.line_comments.find? (fun x => startsWith rem x) with _ | m'
  · rw [h1] at h
    rcases h2 : lang.multi_line_comments.find? (fun p => startsWith rem p.1)
        with _ | p
    · rw [h2] at h
      rcases h3 : lang.quotes.find? (fun p => startsWith rem p.1) with _ | q
      · rw [h3] at h; exact absurd h (by simp)
      · rw [h3] at h
        simp only [Option.some.injEq, Delim.quote.injEq] at h
        obtain ⟨hst, hen⟩ := h
        have hmem := List.mem_of_find?_eq_some h3
        have hsw := List.find?_some h3
        simp only at hsw
        constructor
        · rw [← hst, ← hen]; simpa using hmem
        · rw [← hst]; simpa using hsw
    · rw [h2] at h; simp at h
  · rw [h1] at h; simp at h

/-! ### Strict progress of the loop under a well-formed syntax table -/

theorem stripStep_progress {lang : Language} {s : MachineState}
    (hg : goodSyntax lang) (hok : stateOK s) (hne : s.remaining ≠ []) :
    (stripStep lang s).remaining.length < s.remaining.length
      ∧ stateOK (stripStep lang s) := by
  obtain ⟨rem, stk, sd, out⟩ := s
  cases rem with
  | nil => exact absurd rfl hne
  | cons b rest =>
    cases sd with
    | some d =>
      have hd : d ≠ [] := hok.2 d rfl
      have hdlen : 1 ≤ d.length := List.length_pos.mpr hd
      by_cases hsw : startsWith (b :: rest) d
      · have hstep : stripStep lang ⟨b :: rest, stk, some d, out⟩
            = ⟨(b :: rest).drop d.length, stk, none, out ++ d⟩ := by
          simp [stripStep, hsw]
        rw [hstep]
        refine ⟨?_, hok.1, fun x hcon => Option.noConfusion hcon⟩
        simp only [List.length_drop, List.length_cons]
        omega
      · by_cases hb : (b == 92 && !rest.isEmpty) = true
        · have hstep : stripStep lang ⟨b :: rest, stk, some d, out⟩
              = ⟨(b :: rest).drop 2, stk, some d, out ++ (b :: rest).take 2⟩ := by
            simp [stripStep, hsw, hb]
          rw [hstep]
          refine ⟨?_, hok.1, fun x hcon => (Option.some.inj hcon) ▸ hd⟩
          simp only [List.length_drop, List.length_cons]
          omega
        · have hstep : stripStep lang ⟨b :: rest, stk, some d, out⟩
              = ⟨rest, stk, some d, out ++ [b]⟩ := by
            simp [stripStep, hsw, hb]
          rw [hstep]
          exact ⟨by simp, hok.1, fun x hcon => (Option.some.inj hcon) ▸ hd⟩
    | none =>
      cases stk with
      | cons e stkRest =>
        have he : e ≠ [] := hok.1 e (by simp)
        have helen : 1 ≤ e.length := List.length_pos.mpr he
        by_cases hsw : startsWith (b :: rest) e
        · have hstep : stripStep lang ⟨b :: rest, e :: stkRest, none, out⟩
              = ⟨(b :: rest).drop e.length, stkRest, none, out⟩ := by
            simp [stripStep, hsw]
          rw [hstep]
          refine ⟨?_, fun x hx => hok.1 x (by simp [hx]),
                  fun x hcon => Option.noConfusion hcon⟩
          simp only [List.length_drop, List.length_cons]
          omega
        · rcases hnest : (if lang.allows_nested then
              lang.multi_line_comments.find?
                (fun p => startsWith (b :: rest) p.1)
            else none) with _ | p
          · by_cases hb : b = 10
            · subst hb
              have hstep : stripStep lang ⟨10 :: rest, e :: stkRest, none, out⟩
                  = ⟨rest, e :: stkRest, none, out ++ [10]⟩ := by
                simp [stripStep, hsw, hnest]
              rw [hstep]
              exact ⟨by simp, hok.1, fun x hcon => Option.noConfusion hcon⟩
            · have hstep : stripStep lang ⟨b :: rest, e :: stkRest, none, out⟩
                  = ⟨rest, e :: stkRest, none, out⟩ := by
                simp [stripStep, hsw, hnest, hb]
              rw [hstep]
              exact ⟨by simp, hok.1, fun x hcon => Option.noConfusion hcon⟩
          · have hfind : lang.multi_line_comments.find?
                (fun p => startsWith (b :: rest) p.1) = some p := by
              by_cases hn : lang.allows_nested
              · simpa [hn] using hnest
              · simp [hn] at hnest
            have hmem := List.mem_of_find?_eq_some hfind
            have hp1 : p.1 ≠ [] := (hg.2.1 p hmem).1
            have hp1len : 1 ≤ p.1.length := List.length_pos.mpr hp1
            have hstep : stripStep lang ⟨b :: rest, e :: stkRest, none, out⟩
                = ⟨(b :: rest).drop p.1.length, p.2 :: e :: stkRest, none,
                   out⟩ := by
              simp [stripStep, hsw, hnest]
            rw [hstep]
            refine ⟨?_, ?_, fun x hcon => Option.noConfusion hcon⟩
            · simp only [List.length_drop, List.length_cons]
              omega
            · intro x hx
              rcases List.mem_cons.mp hx with hx | hx
              · exact hx ▸ (hg.2.1 p hmem).2
              · exact hok.1 x hx
      | nil =>
        rcases hscan : codeScan lang (b :: rest) with _ | d
        · have hstep : stripStep lang ⟨b :: rest, [], none, out⟩
              = ⟨rest, [], none, out ++ [b]⟩ := by
            simp [stripStep, hscan]
          rw [hstep]
          exact ⟨by simp, by simp, fun x hcon => Option.noConfusion hcon⟩
        · cases d with
          | line m =>
            obtain ⟨hmem, hsw⟩ := codeScan_line hscan
            obtain ⟨hm, hm10⟩ := hg.1 m hmem
            cases m with
            | nil => exact absurd rfl hm
            | cons mb ms =>
              have hbm : b = mb := by
                simp only [startsWith, Bool.and_eq_true, beq_iff_eq] at hsw
                exact hsw.1
              have hb10 : (b == 10) = false := by
                simp only [List.head?_cons, ne_eq, Option.some.injEq] at hm10
                simp [hbm, hm10]
              rcases hfn : findNewlinePos rest with _ | k
              · have hstep : stripStep lang ⟨b :: rest, [], none, out⟩
                    = ⟨[], [], none, trimTrailing out⟩ := by
                  simp [stripStep, hscan, findNewlinePos, hb10, hfn]
                rw [hstep]
                exact ⟨by simp, by simp, fun x hcon => Option.noConfusion hcon⟩
              · have hstep : stripStep lang ⟨b :: rest, [], none, out⟩
                    = ⟨(b :: rest).drop (k + 1), [], none, trimTrailing out⟩ := by
                  simp [stripStep, hscan, findNewlinePos, hb10, hfn]
                rw [hstep]
                refine ⟨?_, by simp, fun x hcon => Option.noConfusion hcon⟩
                simp only [List.length_drop, List.length_cons]
                omega
          | block st en =>
            obtain ⟨hmem, hsw⟩ := codeScan_block hscan
            have hst : st ≠ [] := (hg.2.1 (st, en) hmem).1
            have hstlen : 1 ≤ st.length := List.length_pos.mpr hst
            have hstep : stripStep lang ⟨b :: rest, [], none, out⟩
                = ⟨(b :: rest).drop st.length, [en], none, out⟩ := by
              simp [stripStep, hscan]
            rw [hstep]
            refine ⟨?_, ?_, fun x hcon => Option.noConfusion hcon⟩
            · simp only [List.length_drop, List.length_cons]
              omega
            · intro x hx
              rcases List.mem_cons.mp hx with hx | hx
              · exact hx ▸ (hg.2.1 (st, en) hmem).2
              · simp at hx
          | quote st en =>
            obtain ⟨hmem, hsw⟩ := codeScan_quote hscan
            have hst : st ≠ [] := (hg.2.2 (st, en) hmem).1
            have hstlen : 1 ≤ st.length := List.length_pos.mpr hst
            have hen : en ≠ [] := (hg.2.2 (st, en) hmem).2
            have hstep : stripStep lang ⟨b :: rest, [], none, out⟩
                = ⟨(b :: rest).drop st.length, [], some en, out ++ st⟩ := by
              simp [stripStep, hscan]
            rw [hstep]
            refine ⟨?_, by simp, fun x hcon => (Option.some.inj hcon) ▸ hen⟩
            simp only [List.length_drop, List.length_cons]
            omega

theorem stripLoop_isSome {lang : Language} (hg : goodSyntax lang) :
    ∀ (fuel : Nat) (s : MachineState), stateOK s →
      s.remaining.length ≤ fuel → (stripLoop lang fuel s).isSome = true := by
  intro fuel
  induction fuel with
  | zero =>
    intro s hok hlen
    obtain ⟨rem, stk, sd, out⟩ := s
    cases rem with
    | nil => rfl
    | cons b rest => simp at hlen
  | succ f ih =>
    intro s hok hlen
    obtain ⟨rem, stk, sd, out⟩ := s
    cases rem with
    | nil => rfl
    | cons b rest =>
      obtain ⟨hlt, hok'⟩ :=
        stripStep_progress (s := ⟨b :: rest, stk, sd, out⟩) hg hok (by simp)
      have heq : stripLoop lang (f + 1) ⟨b :: rest, stk, sd, out⟩
          = stripLoop lang f (stripStep lang ⟨b :: rest, stk, sd, out⟩) := rfl
      rw [heq]
      refine ih _ hok' ?_
      simp only [List.length_cons] at hlt hlen
      omega

/-- Claim C8, counterexample: the non-emptiness precondition alone does
not bound the loop. For the syntax whose only delimiter is the non-empty
line-comment marker consisting of the newline byte, on the one-byte
input consisting of a newline the loop does not exit within
input-length iterations; indeed the loop body maps the initial state to
itself, so the Rust loop never terminates. -/
theorem claim_c8_counterexample :
    (∀ m ∈ nlLang.line_comments, m ≠ [])
    ∧ (∀ p ∈ nlLang.multi_line_comments, p.1 ≠ [] ∧ p.2 ≠ [])
    ∧ (∀ p ∈ nlLang.quotes, p.1 ≠ [] ∧ p.2 ≠ [])
    ∧ stripLoop nlLang (List.length [10]) (initState [10]) = none
    ∧ stripStep nlLang (initState [10]) = initState [10] := by
  refine ⟨by decide, by decide, by decide, by decide, by decide⟩

/-- Claim C8 (amended): strip terminates on every byte input within a
number of loop steps bounded by the input length, provided every
delimiter string is non-empty AND no line-comment marker begins with a
newline byte (the counterexample forces the second condition); and
strip of the empty input returns the empty output for every syntax. -/
theorem claim_c8_amended_termination (lang : Language) (hg : goodSyntax lang)
    (contents : List Byte) :
    (stripLoop lang contents.length (initState contents)).isSome = true
    ∧ ∀ lang2 : Language, remove_comments [] lang2 = [] := by
  refine ⟨?_, fun lang2 => rfl⟩
  refine stripLoop_isSome hg contents.length (initState contents) ?_ (le_refl _)
  exact ⟨by simp [initState], fun d hcon => Option.noConfusion hcon⟩

/-- Witness for the amended C8 at a concrete syntax and input. -/
theorem claim_c8_amended_termination_witness :
    (stripLoop cNested (toBytes "x // y\n").length
      (initState (toBytes "x // y\n"))).isSome = true
    ∧ ∀ lang2 : Language, remove_comments [] lang2 = [] :=
  claim_c8_amended_termination cNested (by decide) (toBytes "x // y\n")

/-! ### The output never exceeds the input in length -/

theorem stripStep_measure (lang : Language) (s : MachineState) :
    (stripStep lang s).output.length + (stripStep lang s).remaining.length
      ≤ s.output.length + s.remaining.length := by
  obtain ⟨rem, stk, sd, out⟩ := s
  cases rem with
  | nil => simp [stripStep]
  | cons b rest =>
    cases sd with
    | some d =>
      by_cases hsw : startsWith (b :: rest) d
      · have hle := startsWith_length hsw
        have hstep : stripStep lang ⟨b :: rest, stk, some d, out⟩
            = ⟨(b :: rest).drop d.length, stk, none, out ++ d⟩ := by
          simp [stripStep, hsw]
        rw [hstep]
        simp only [List.length_drop, List.length_append, List.length_cons]
        simp only [List.length_cons] at hle
        omega
      · by_cases hb : (b == 92 && !rest.isEmpty) = true
        · have hstep : stripStep lang ⟨b :: rest, stk, some d, out⟩
              = ⟨(b :: rest).drop 2, stk, some d,
                 out ++ (b :: rest).take 2⟩ := by
            simp [stripStep, hsw, hb]
          rw [hstep]
          have h2 : 2 ≤ (b :: rest).length := by
            cases rest with
            | nil => simp at hb
            | cons r rs => simp
          simp only [List.length_drop, List.length_append, List.length_take,
            List.length_cons] at h2 ⊢
          omega
        · have hstep : stripStep lang ⟨b :: rest, stk, some d, out⟩
              = ⟨rest, stk, some d, out ++ [b]⟩ := by
            simp [stripStep, hsw, hb]
          rw [hstep]
          simp only [List.length_append, List.length_cons, List.length_nil]
          omega
    | none =>
      cases stk with
      | cons e stkRest =>
        by_cases hsw : startsWith (b :: rest) e
        · have hstep : stripStep lang ⟨b :: rest, e :: stkRest, none, out⟩
              = ⟨(b :: rest).drop e.length, stkRest, none, out⟩ := by
            simp [stripStep, hsw]
          rw [hstep]
          simp only [List.length_drop, List.length_cons]
          omega
        · rcases hnest : (if lang.allows_nested then
              lang.multi_line_comments.find?
                (fun p => startsWith (b :: rest) p.1)
            else none) with _ | p
          · by_cases hb : b = 10
            · subst hb
              have hstep : stripStep lang ⟨10 :: rest, e :: stkRest, none, out⟩
                  = ⟨rest, e :: stkRest, none, out ++ [10]⟩ := by
                simp [stripStep, hsw, hnest]
              rw [hstep]
              simp only [List.length_append, List.length_cons, List.length_nil]
              omega
            · have hstep : stripStep lang ⟨b :: rest, e :: stkRest, none, out⟩
                  = ⟨rest, e :: stkRest, none, out⟩ := by
                simp [stripStep, hsw, hnest, hb]
              rw [hstep]
              simp only [List.length_cons]
              omega
          · have hstep : stripStep lang ⟨b :: rest, e :: stkRest, none, out⟩
                = ⟨(b :: rest).drop p.1.length, p.2 :: e :: stkRest, none,
                   out⟩ := by
              simp [stripStep, hsw, hnest]
            rw [hstep]
            simp only [List.length_drop, List.length_cons]
            omega
      | nil =>
        rcases hscan : codeScan lang (b :: rest) with _ | d
        · have hstep : stripStep lang ⟨b :: rest, [], none, out⟩
              = ⟨rest, [], none, out ++ [b]⟩ := by
            simp [stripStep, hscan]
          rw [hstep]
          simp only [List.length_append, List.length_cons, List.length_nil]
          omega
        · cases d with
          | line m =>
            have htrim := trimTrailing_length out
            rcases hfn : findNewlinePos (b :: rest) with _ | k
            · have hstep : stripStep lang ⟨b :: rest, [], none, out⟩
                  = ⟨[], [], none, trimTrailing out⟩ := by
                simp [stripStep, hscan, hfn]
              rw [hstep]
              simp only [List.length_nil, List.length_cons]
              omega
            · have hstep : stripStep lang ⟨b :: rest, [], none, out⟩
                  = ⟨(b :: rest).drop k, [], none, trimTrailing out⟩ := by
                simp [stripStep, hscan, hfn]
              rw [hstep]
              simp only [List.length_drop, List.length_cons]
              omega
          | block st en =>
            have hstep : stripStep lang ⟨b :: rest, [], none, out⟩
                = ⟨(b :: rest).drop st.length, [en], none, out⟩ := by
              simp [stripStep, hscan]
            rw [hstep]
            simp only [List.length_drop, List.length_cons]
            omega
          | quote st en =>
            obtain ⟨hmem, hsw⟩ := codeScan_quote hscan
            have hle := startsWith_length hsw
            have hstep : stripStep lang ⟨b :: rest, [], none, out⟩
                = ⟨(b :: rest).drop st.length, [], some en, out ++ st⟩ := by
              simp [stripStep, hscan]
            rw [hstep]
            simp only [List.length_drop, List.length_append,
              List.length_cons] at hle ⊢
            omega

theorem stripLoop_length {lang : Language} :
    ∀ (fuel : Nat) (s : MachineState) (out : List Byte),
      stripLoop lang fuel s = some out →
      out.length ≤ s.output.length + s.remaining.length := by
  intro fuel
  induction fuel with
  | zero =>
    intro s out h
    obtain ⟨rem, stk, sd, o⟩ := s
    cases rem with
    | nil =>
      have : o = out := by simpa [stripLoop] using h
      simp [← this]
    | cons b rest => simp [stripLoop] at h
  | succ f ih =>
    intro s out h
    obtain ⟨rem, stk, sd, o⟩ := s
    cases rem with
    | nil =>
      have : o = out := by simpa [stripLoop] using h
      simp [← this]
    | cons b rest =>
      have heq : stripLoop lang (f + 1) ⟨b :: rest, stk, sd, o⟩
          = stripLoop lang f (stripStep lang ⟨b :: rest, stk, sd, o⟩) := rfl
      rw [heq] at h
      have h1 := ih _ out h
      have h2 := stripStep_measure lang ⟨b :: rest, stk, sd, o⟩
      omega

/-- Claim C10: for every byte input and every syntax the stripper's
output is at most as long as the input: every step emits no more bytes
than it consumes and the trailing-whitespace trim only truncates, so the
sum of output length and unread length never grows. -/
theorem claim_c10_output_length (contents : List Byte) (lang : Language) :
    (remove_comments contents lang).length ≤ contents.length := by
  unfold remove_comments
  rcases h : stripLoop lang contents.length (initState contents) with _ | out
  · simp
  · have := stripLoop_length contents.length (initState contents) out h
    simpa [initState] using this

/-! ### Stripping an output with no remaining delimiter matches -/

theorem strip_no_delim {lang : Language} :
    ∀ (rem out : List Byte),
      (∀ i, i ≤ rem.length → codeScan lang (rem.drop i) = none) →
      stripLoop lang rem.length ⟨rem, [], none, out⟩ = some (out ++ rem) := by
  intro rem
  induction rem with
  | nil => intro out _; simp [stripLoop]
  | cons b rest ih =>
    intro out h
    have h0 : codeScan lang (b :: rest) = none := by simpa using h 0 (by omega)
    have heq : stripLoop lang (rest.length + 1) ⟨b :: rest, [], none, out⟩
        = stripLoop lang rest.length
            (stripStep lang ⟨b :: rest, [], none, out⟩) := rfl
    show stripLoop lang (rest.length + 1) ⟨b :: rest, [], none, out⟩
        = some (out ++ b :: rest)
    rw [heq, stripStep_code_none h0,
        ih (out ++ [b]) (fun i hi => by simpa using h (i + 1) (by simpa using hi))]
    simp

/-- Claim C9, counterexample: idempotence fails even on an input with no
string literal at all. For the syntax with line marker `##` and block
pair `/*` `*/`, the input `#/*c*/#x` (which contains no quote byte)
strips to `##x`; removing the block comment has spliced the two `#`
bytes into a line-comment marker, so a second strip yields the empty
output instead. -/
theorem claim_c9_counterexample :
    remove_comments (toBytes "#/*c*/#x") hashLang = toBytes "##x"
    ∧ remove_comments
        (remove_comments (toBytes "#/*c*/#x") hashLang) hashLang = []
    ∧ (34 : Byte) ∉ toBytes "#/*c*/#x"
    ∧ remove_comments
        (remove_comments (toBytes "#/*c*/#x") hashLang) hashLang
        ≠ remove_comments (toBytes "#/*c*/#x") hashLang := by
  refine ⟨by decide, by decide, by decide, by decide⟩

/-- Claim C9 (amended): stripping output that already has no comments or
strings returns it unchanged, stated as: whenever strip(x) contains no
delimiter match of any category at any byte offset, strip(strip(x)) =
strip(x). The unqualified form fails because deleting a block comment
can splice the surrounding bytes into a new line-comment marker. -/
theorem claim_c9_amended_idempotent (lang : Language) (x : List Byte)
    (h : ∀ i, i ≤ (remove_comments x lang).length →
        specChoose lang ((remove_comments x lang).drop i) = none) :
    remove_comments (remove_comments x lang) lang = remove_comments x lang := by
  have h' : ∀ i, i ≤ (remove_comments x lang).length →
      codeScan lang ((remove_comments x lang).drop i) = none := by
    intro i hi
    rw [codeScan_eq_specChoose]
    exact h i hi
  show (stripLoop lang (remove_comments x lang).length
      (initState (remove_comments x lang))).getD [] = remove_comments x lang
  rw [show initState (remove_comments x lang)
      = ⟨remove_comments x lang, [], none, []⟩ from rfl,
    strip_no_delim (remove_comments x lang) [] h']
  simp

/-- Witness for the amended C9: for the C-like syntax, the strip of
`a // b` followed by a newline is `a` followed by a newline; it has no
delimiter match anywhere, and re-stripping returns it unchanged. -/
theorem claim_c9_amended_idempotent_witness :
    remove_comments
        (remove_comments (toBytes "a // b\n") cFlat) cFlat
      = remove_comments (toBytes "a // b\n") cFlat :=
  claim_c9_amended_idempotent cFlat (toBytes "a // b\n") (by decide)

/-! ### The pipeline appends accepted files byte-identically -/

/-- Claim C2, counterexample: the pipeline appends the original bytes of
a `.rs` file even though its extension resolves to the Rust syntax and
the stripper would transform them: `process_files` is independent of the
stripper, whose output differs from the appended bytes. -/
theorem claim_c2_counterexample :
    process_files [(toBytes "main.rs", ReadResult.ok (toBytes "x // y\n"))]
      = headerBytes (toBytes "main.rs") ++ toBytes "x // y\n" ++ [10]
    ∧ remove_comments (toBytes "x // y\n") rustLang ≠ toBytes "x // y\n" := by
  refine ⟨by decide, by decide⟩

/-- Claim C2 (amended): the pipeline never invokes the comment stripper;
every readable, non-binary file's bytes are appended byte-identically
(header, original contents, newline), regardless of its extension. -/
theorem claim_c2_amended_passthrough (files : List (List Byte × ReadResult))
    (p c : List Byte) (h : c.contains 0 = false) :
    process_files (files ++ [(p, ReadResult.ok c)])
      = process_files files ++ headerBytes p ++ c ++ [10] := by
  unfold process_files
  rw [List.foldl_append]
  have h' : (0 : Byte) ∉ c := by simpa using h
  simp [h']

/-- Witness for the amended C2 at a concrete file list. -/
theorem claim_c2_amended_passthrough_witness :
    process_files ([] ++ [(toBytes "a.rs", ReadResult.ok (toBytes "x\n"))])
      = process_files [] ++ headerBytes (toBytes "a.rs")
          ++ toBytes "x\n" ++ [10] :=
  claim_c2_amended_passthrough [] (toBytes "a.rs") (toBytes "x\n") (by decide)


end JoinAi
